import Mathlib

set_option maxRecDepth 4000

/-- Characters of a JavaScript string; every definition below works over
character lists so that string operations stay structural. -/
abbrev Str := List Char

/-- The single-quote character, written by code point. -/
def sqChar : Char := Char.ofNat 39

/-- The backtick character, written by code point. -/
def btChar : Char := Char.ofNat 96

/-- The characters JavaScript's `\s` class matches and `String.prototype.trim`
removes (WhiteSpace plus LineTerminator). -/
def wsChars : Str :=
  [' ', '\t', '\n', '\r', '\x0b', '\x0c', '\u00A0', '\u1680', '\u2000', '\u2001',
   '\u2002', '\u2003', '\u2004', '\u2005', '\u2006', '\u2007', '\u2008', '\u2009',
   '\u200A', '\u2028', '\u2029', '\u202F', '\u205F', '\u3000', '\uFEFF']

/-- `\s`-membership of one character. -/
def isJsWs (c : Char) : Bool := wsChars.contains c

/-- `line.trim()`: strip leading and trailing whitespace. -/
def trimStr (s : Str) : Str :=
  ((s.dropWhile isJsWs).reverse.dropWhile isJsWs).reverse

/-- `content.split('\n')`: the empty string yields one empty line. -/
def splitNl : Str → List Str
  | [] => [[]]
  | c :: cs =>
    if c = '\n' then [] :: splitNl cs
    else
      match splitNl cs with
      | [] => [[c]]
      | r :: rs => (c :: r) :: rs

/-- `lines.join('\n')`. -/
def joinNl : List Str → Str
  | [] => []
  | [l] => l
  | l :: ls => l ++ '\n' :: joinNl ls

/-- `line.endsWith('\\')`. -/
def endsBS (s : Str) : Bool := s.getLast? == some '\\'

/-- PATTERNS.COMMENT, the regex `/^\s*#/`. -/
def isComment (s : Str) : Bool := (s.dropWhile isJsWs).head? == some '#'

/-- First-character class of PATTERNS.ENV_LINE's key, `[A-Z_]` under the `i`
flag, so `[A-Za-z_]`. -/
def isKeyStart (c : Char) : Bool := c.isAlpha || c == '_'

/-- Later-character class of the key, `[A-Z0-9_]` under the `i` flag. -/
def isKeyChar (c : Char) : Bool := c.isAlpha || c.isDigit || c == '_'

/-- A character the JavaScript regex `.` matches: anything but a line
terminator (`\n`, `\r`, U+2028, U+2029). -/
def isDotChar (c : Char) : Bool :=
  !(c == '\n' || c == '\r' || c == '\u2028' || c == '\u2029')

/-- PATTERNS.ENV_LINE, `/^\s*([A-Z_][A-Z0-9_]*)=(.*)$/i`: the two captures
when the anchored regex matches. The key run is maximal; backtracking cannot
help because no key character is `=`. `(.*)$` spans the value only when it
contains no line terminator, since `.` skips none and `$` (no `m` flag)
matches only at end of input. -/
def envLineMatch (s : Str) : Option (Str × Str) :=
  match (s.dropWhile isJsWs).takeWhile isKeyChar, (s.dropWhile isJsWs).dropWhile isKeyChar with
  | k0 :: ks, '=' :: v =>
    if isKeyStart k0 && v.all isDotChar then some (k0 :: ks, v) else none
  | _, _ => none

/-- ASCII case folding of the regex `i` flag. -/
def ciEq (a b : Char) : Bool := a.toLower == b.toLower

/-- Strip a case-insensitive literal pattern from the front of a string. -/
def stripCI : Str → Str → Option Str
  | [], s => some s
  | _ :: _, [] => none
  | p :: ps, c :: cs => if ciEq p c then stripCI ps cs else none

/-- The tail `\s+([^=]+)=(.*)$` of the export regex, applied after the
keyword: `p` is everything before the first `=`; the greedy `\s+` gives back
one character when `[^=]+` would otherwise be empty. -/
def exportTail (r : Str) : Option (Str × Str) :=
  let p := r.takeWhile (fun c => !(c == '='))
  match r.dropWhile (fun c => !(c == '=')) with
  | '=' :: v =>
    if v.all isDotChar then
      let w := p.takeWhile isJsWs
      if w.length = 0 then none
      else if w.length < p.length then some (p.drop w.length, v)
      else if 2 ≤ p.length then some (p.drop (p.length - 1), v)
      else none
    else none
  | _ => none

/-- The export regex `/^\s*export\s+([^=]+)=(.*)$/i`. -/
def exportMatch (s : Str) : Option (Str × Str) :=
  match stripCI "export".data (s.dropWhile isJsWs) with
  | none => none
  | some r => exportTail r

/-- processValue: remove one pair of wrapping quotes, single or double
(`value.slice(1, -1)`); a lone quote character strips to the empty string
exactly as in JavaScript. -/
def processValue (v : Str) : Str :=
  if (v.head? == some '"' && v.getLast? == some '"') ||
     (v.head? == some sqChar && v.getLast? == some sqChar) then
    v.dropLast.tail
  else v

/-- `env[key]` as an option; `none` plays `undefined`. -/
def lookupEnv : List (Str × Str) → Str → Option Str
  | [], _ => none
  | p :: ps, k => if p.1 = k then some p.2 else lookupEnv ps k

/-- Own-key membership of a plain object (no prototype chain). -/
def hasOwnKey (env : List (Str × Str)) (k : Str) : Bool :=
  env.any (fun p => decide (p.1 = k))

/-- The key whose assignment hits the inherited `__proto__` accessor. -/
def protoKey : Str := "__proto__".data

/-- The property names of `Object.prototype`, which the `in` operator finds
on every plain object through the prototype chain. -/
def protoProps : List Str :=
  ["constructor".data, "hasOwnProperty".data, "isPrototypeOf".data,
    "propertyIsEnumerable".data, "toLocaleString".data, "toString".data,
    "valueOf".data, "__defineGetter__".data, "__defineSetter__".data,
    "__lookupGetter__".data, "__lookupSetter__".data, "__proto__".data]

/-- The JavaScript `key in env` operator on a plain object: own keys plus
everything inherited from `Object.prototype`. -/
def inEnv (env : List (Str × Str)) (k : Str) : Bool :=
  hasOwnKey env k || decide (k ∈ protoProps)

/-- `Object.keys(env)`, insertion order. -/
def keysOf (env : List (Str × Str)) : List Str := env.map Prod.fst

/-- `env[key] = value`, ordinary assignment on a plain object kept as an
ordered association list: an existing own key is overwritten in place; the
key `__proto__` with a string value hits the inherited accessor and is a
silent no-op; any other new key is appended. -/
def envInsert (env : List (Str × Str)) (k v : Str) : List (Str × Str) :=
  if hasOwnKey env k then
    env.map (fun p => if p.1 = k then (k, v) else p)
  else if k = protoKey then env
  else env ++ [(k, v)]

/-- One copied entry of an object-literal spread: spread uses define
semantics, which bypasses inherited setters. -/
def envDefine (env : List (Str × Str)) (k v : Str) : List (Str × Str) :=
  if hasOwnKey env k then
    env.map (fun p => if p.1 = k then (k, v) else p)
  else env ++ [(k, v)]

/-- The loop of parseEnvContent: remaining lines, the object built so far,
and the multiline state (currentKey, currentValue); `none` means no
continuation is open. -/
def parseLines : List Str → List (Str × Str) → Option (Str × Str) → List (Str × Str)
  | [], env, none => env
  | [], env, some (k, v) => envInsert env k (processValue v)
  | line :: rest, env, some (k, v) =>
    if endsBS line then parseLines rest env (some (k, v ++ line.dropLast ++ ['\n']))
    else parseLines rest (envInsert env k (processValue (v ++ line))) none
  | line :: rest, env, none =>
    let trimmed := trimStr line
    if trimmed.isEmpty then parseLines rest env none
    else if isComment trimmed then parseLines rest env none
    else
      match envLineMatch trimmed with
      | none => parseLines rest env none
      | some (k1, v1) =>
        let key := trimStr k1
        let value := trimStr v1
        match exportMatch trimmed with
        | some (ek, ev) =>
          parseLines rest (envInsert env (trimStr ek) (processValue (trimStr ev))) none
        | none =>
          if endsBS value then parseLines rest env (some (key, value.dropLast))
          else parseLines rest (envInsert env key (processValue value)) none

/-- parseEnvContent of src/utils/envParser.ts. -/
def parseEnvContent (content : Str) : List (Str × Str) :=
  parseLines (splitNl content) [] none

/-- PATTERNS.ENV_KEY first character, `[A-Z_]` with no `i` flag. -/
def isUpperKeyStart (c : Char) : Bool := ('A' ≤ c && c ≤ 'Z') || c == '_'

/-- PATTERNS.ENV_KEY later characters, `[A-Z0-9_]` with no `i` flag. -/
def isUpperKeyChar (c : Char) : Bool := ('A' ≤ c && c ≤ 'Z') || c.isDigit || c == '_'

/-- PATTERNS.ENV_KEY, `/^[A-Z_][A-Z0-9_]*$/` (case-sensitive). -/
def envKeyTest : Str → Bool
  | [] => false
  | c :: cs => isUpperKeyStart c && cs.all isUpperKeyChar

/-- Decimal rendering of a line number, as `${lineNum}` prints it. -/
def natToStr (n : Nat) : Str := Nat.toDigits 10 n

/-- The `Line ${lineNum}: ` prelude every validator message starts with. -/
def lineTag (n : Nat) : Str := "Line ".data ++ (natToStr n ++ ": ".data)

/-- `Line ${n}: Empty key`. -/
def emptyKeyMsg (n : Nat) : Str := lineTag n ++ "Empty key".data

/-- `Line ${n}: Invalid key "${k}" - use uppercase letters, numbers, and underscores`. -/
def invalidKeyMsg (n : Nat) (k : Str) : Str :=
  lineTag n ++
    ("Invalid key \"".data ++ (k ++ "\" - use uppercase letters, numbers, and underscores".data))

/-- `Line ${n}: Duplicate key "${k}"`. -/
def dupKeyMsg (n : Nat) (k : Str) : Str :=
  lineTag n ++ ("Duplicate key \"".data ++ (k ++ "\"".data))

/-- `Line ${n}: Invalid syntax - expected KEY=VALUE format`. -/
def invalidSyntaxMsg (n : Nat) : Str :=
  lineTag n ++ "Invalid syntax - expected KEY=VALUE format".data

/-- `Line ${n}: Unquoted value with spaces - consider quoting: ${k}="${v}"`. -/
def unquotedValueMsg (n : Nat) (k v : Str) : Str :=
  lineTag n ++
    ("Unquoted value with spaces - consider quoting: ".data ++
      (k ++ ("=\"".data ++ (v ++ "\"".data))))

/-- validateKey of src/utils/envParser.ts: the updated seen-key set and the
errors the call pushes, in order of the source's early returns. -/
def validateKey (k : Str) (n : Nat) (keys : List Str) : List Str × List Str :=
  if k.isEmpty then (keys, [emptyKeyMsg n])
  else if !envKeyTest k then (keys, [invalidKeyMsg n k])
  else if k ∈ keys then (keys, [dupKeyMsg n k])
  else (keys ++ [k], [])

/-- isQuoted of src/utils/envParser.ts. -/
def isQuoted (v : Str) : Bool :=
  (v.head? == some '"' && v.getLast? == some '"') ||
  (v.head? == some sqChar && v.getLast? == some sqChar)

/-- The body of validateEnvContent's loop for one non-blank, non-comment
line, already trimmed: the updated seen-key set and the errors pushed. -/
def validateLineStep (n : Nat) (keys : List Str) (trimmed : Str) : List Str × List Str :=
  match envLineMatch trimmed with
  | none =>
    match exportMatch trimmed with
    | none => (keys, [invalidSyntaxMsg n])
    | some (ek, _) => validateKey (trimStr ek) n keys
  | some (k1, v1) =>
    let key := trimStr k1
    let value := trimStr v1
    let r := validateKey key n keys
    (r.1,
      r.2 ++
        (if !value.isEmpty && !isQuoted value && value.any isJsWs then
          [unquotedValueMsg n key value]
        else []))

/-- The loop of validateEnvContent: `n` is the 1-indexed line number. -/
def validateLines : List Str → Nat → List Str → List Str
  | [], _, _ => []
  | line :: rest, n, keys =>
    let trimmed := trimStr line
    if trimmed.isEmpty || isComment trimmed then validateLines rest (n + 1) keys
    else
      let r := validateLineStep n keys trimmed
      r.2 ++ validateLines rest (n + 1) r.1

/-- validateEnvContent of src/utils/envParser.ts. -/
def validateEnvContent (content : Str) : List Str :=
  validateLines (splitNl content) 1 []

/-- shouldQuoteValue, the regex class `[\s='"$` plus backtick, backslash and
newline (the newline already sits inside `\s`). -/
def shouldQuoteValue (v : Str) : Bool :=
  v.any (fun c =>
    isJsWs c || c == '=' || c == sqChar || c == '"' || c == '$' || c == btChar || c == '\\')

/-- The value as stringifyEnv writes it: `"${value}"` when quoting is
needed, the raw value otherwise. -/
def quotedVal (v : Str) : Str :=
  if shouldQuoteValue v then '"' :: (v ++ ['"']) else v

/-- The line stringifyEnv emits for one entry, `${key}=${quotedValue}`. -/
def stringifyLine (p : Str × Str) : Str := p.1 ++ '=' :: quotedVal p.2

/-- stringifyEnv of src/utils/envParser.ts. -/
def stringifyEnv (env : List (Str × Str)) : Str :=
  joinNl (env.map stringifyLine)

/-- getMissingKeys: keys of the source for which `key in target` is false
(the `in` operator, prototype chain included). -/
def getMissingKeys (target source : List (Str × Str)) : List Str :=
  (keysOf source).filter (fun k => !inEnv target k)

/-- getExtraKeys: keys of the target for which `key in source` is false. -/
def getExtraKeys (target source : List (Str × Str)) : List Str :=
  (keysOf target).filter (fun k => !inEnv source k)

/-- `Array.from(new Set(l))`: first-occurrence order, duplicates dropped. -/
def setDedup : List Str → List Str → List Str
  | [], _ => []
  | k :: ks, seen =>
    if seen.contains k then setDedup ks seen else k :: setDedup ks (k :: seen)

/-- getDifferentKeys of src/utils/envParser.ts: the union of both key sets
filtered by `env1[key] !== env2[key]`, where an absent key reads as
`undefined`. -/
def getDifferentKeys (env1 env2 : List (Str × Str)) : List Str :=
  (setDedup (keysOf env1 ++ keysOf env2) []).filter
    (fun k => !(lookupEnv env1 k == lookupEnv env2 k))

/-- The object spread `{...acc, ...env}`. -/
def spreadInto (acc env : List (Str × Str)) : List (Str × Str) :=
  env.foldl (fun a p => envDefine a p.1 p.2) acc

/-- mergeEnv: `envs.reduce((acc, env) => ({...acc, ...env}), {})`. -/
def mergeEnv (envs : List (List (Str × Str))) : List (Str × Str) :=
  envs.foldl spreadInto []

/-- The `preserve` branch of syncCommand: copy the target by spread, then
assign each key of the source that `in` does not find on the target, with
the source's value. -/
def syncPreserve (source target : List (Str × Str)) : List (Str × Str) :=
  (getMissingKeys target source).foldl
    (fun acc k => envInsert acc k ((lookupEnv source k).getD [])) (spreadInto [] target)

/-- Severity of a lint issue. -/
inductive Severity
  | error
  | warning
deriving DecidableEq

/-- Strip an exact literal from the front of a string. -/
def stripPre : Str → Str → Option Str
  | [], s => some s
  | _ :: _, [] => none
  | p :: ps, c :: cs => if p = c then stripPre ps cs else none

/-- `parseInt` on the digit run a line tag captured. -/
def digitsVal (d : Str) : Nat := d.foldl (fun a c => a * 10 + (c.toNat - 48)) 0

/-- lintCommand's `error.match(/^Line (\d+):/)`: the captured number. -/
def matchLineNum (e : Str) : Option Nat :=
  match stripPre "Line ".data e with
  | none => none
  | some r =>
    let d := r.takeWhile Char.isDigit
    if d.isEmpty then none
    else if (r.drop d.length).head? == some ':' then some (digitsVal d) else none

/-- lintCommand's `error.replace(/^Line \d+: /, '')`. -/
def stripLineTag (e : Str) : Str :=
  match stripPre "Line ".data e with
  | none => e
  | some r =>
    let d := r.takeWhile Char.isDigit
    if d.isEmpty then e
    else
      match r.drop d.length with
      | ':' :: ' ' :: rest => rest
      | _ => e

/-- lintCommand's mapping of each validateEnvContent message into an issue:
line number read from the tag (0 when absent), message with the tag
stripped, severity error. -/
def lintValidationIssues (content : Str) : List (Nat × Str × Severity) :=
  (validateEnvContent content).map
    (fun e => ((matchLineNum e).getD 0, stripLineTag e, Severity.error))

/-- Whether `.* .*` can match a remainder: a space reachable through `.`
characters. -/
def dotReachSpace : Str → Bool
  | [] => false
  | c :: cs => if c = ' ' then true else if isDotChar c then dotReachSpace cs else false

/-- The class `[^"'` + backtick + `]` of lintCommand's unquoted-value regex. -/
def notQuoteClass (c : Char) : Bool := !(c == '"' || c == sqChar || c == btChar)

/-- One attempt of the capture `([^...].* .*)` at a fixed start. -/
def unqAttempt : Str → Bool
  | [] => false
  | c :: tl => notQuoteClass c && dotReachSpace tl

/-- Backtracking of the second `\s*`: the engine tries the greedy run first
and gives characters back one at a time; only whether some attempt succeeds
is observable. -/
def unqBacktrack (r : Str) : Nat → Bool
  | 0 => unqAttempt r
  | i + 1 => unqAttempt (r.drop (i + 1)) || unqBacktrack r i

/-- lintCommand's additional check, the regex
`/^[A-Z_][A-Z0-9_]*\s*=\s*([^"'` + backtick + `].* .*)/` on the raw line. -/
def lintUnquotedTest : Str → Bool
  | [] => false
  | c0 :: rest =>
    isUpperKeyStart c0 &&
      (let afterKey := rest.dropWhile isUpperKeyChar
       match afterKey.dropWhile isJsWs with
       | '=' :: r => unqBacktrack r (r.takeWhile isJsWs).length
       | _ => false)

/-- The message of lintCommand's whitespace-only check. -/
def wsOnlyMsg : Str := "Line contains only whitespace".data

/-- The message of lintCommand's unquoted-value check. -/
def quoteSuggestMsg : Str := "Value with spaces should be quoted".data

/-- The per-line additional checks of lintCommand, in line order. -/
def lintExtraIssues : List Str → Nat → List (Nat × Str × Severity)
  | [], _ => []
  | line :: rest, n =>
    (if trimStr line = [] ∧ line ≠ [] then [(n, wsOnlyMsg, Severity.warning)] else []) ++
      (if lintUnquotedTest line ∧ line.all (fun c => !(c == '#')) then
        [(n, quoteSuggestMsg, Severity.warning)]
      else []) ++
      lintExtraIssues rest (n + 1)

/-- The issue list lintCommand assembles from file content: every validation
message first (severity error), then the per-line additional checks. -/
def lintIssues (content : Str) : List (Nat × Str × Severity) :=
  lintValidationIssues content ++ lintExtraIssues (splitNl content) 1

/-- parseEnvContent with every partial string operation made explicit: the
two `slice(0, -1)` calls run only on strings checked to end in a backslash,
and `none` would be the analogue of a thrown exception. -/
def parseLinesO : List Str → List (Str × Str) → Option (Str × Str) → Option (List (Str × Str))
  | [], env, none => some env
  | [], env, some (k, v) => some (envInsert env k (processValue v))
  | line :: rest, env, some (k, v) =>
    if endsBS line then
      match line with
      | [] => none
      | _ :: _ => parseLinesO rest env (some (k, v ++ line.dropLast ++ ['\n']))
    else parseLinesO rest (envInsert env k (processValue (v ++ line))) none
  | line :: rest, env, none =>
    let trimmed := trimStr line
    if trimmed.isEmpty then parseLinesO rest env none
    else if isComment trimmed then parseLinesO rest env none
    else
      match envLineMatch trimmed with
      | none => parseLinesO rest env none
      | some (k1, v1) =>
        let key := trimStr k1
        let value := trimStr v1
        match exportMatch trimmed with
        | some (ek, ev) =>
          parseLinesO rest (envInsert env (trimStr ek) (processValue (trimStr ev))) none
        | none =>
          if endsBS value then
            match value with
            | [] => none
            | _ :: _ => parseLinesO rest env (some (key, value.dropLast))
          else parseLinesO rest (envInsert env key (processValue value)) none

/-- Defensive variant of parseEnvContent; `none` would be an exception. -/
def parseEnvContentO (content : Str) : Option (List (Str × Str)) :=
  parseLinesO (splitNl content) [] none

/-- validateEnvContent with the continuation `slice(0, -1)` guarded the same
way; `none` would be an exception. -/
def validateLinesO : List Str → Nat → List Str → Option (List Str)
  | [], _, _ => some []
  | line :: rest, n, keys =>
    match
      (if endsBS line then
        match line with
        | [] => none
        | _ :: _ => some line.dropLast
      else some line) with
    | none => none
    | some _ =>
      let trimmed := trimStr line
      if trimmed.isEmpty || isComment trimmed then validateLinesO rest (n + 1) keys
      else
        let r := validateLineStep n keys trimmed
        match validateLinesO rest (n + 1) r.1 with
        | none => none
        | some es => some (r.2 ++ es)

/-- Defensive variant of validateEnvContent; `none` would be an exception. -/
def validateEnvContentO (content : Str) : Option (List Str) :=
  validateLinesO (splitNl content) 1 []

/-- A well-formed key for round-tripping: nonempty, `[A-Za-z_]` first and
`[A-Za-z0-9_]*` after, the character set PATTERNS.ENV_LINE reparses. -/
def goodKey : Str → Bool
  | [] => false
  | c :: cs => isKeyStart c && cs.all isKeyChar

theorem ne_of_bool_distinct {p : Char → Bool} {c d : Char} (h1 : p c = true)
    (h2 : p d = false) : c ≠ d := fun he => by rw [he, h2] at h1; cases h1

theorem mem_wsChars_of_isJsWs {c : Char} (h : isJsWs c = true) : c ∈ wsChars := by
  simpa [isJsWs, List.contains_iff_exists_mem_beq, beq_iff_eq] using h

theorem isKeyChar_not_ws {c : Char} (h : isKeyChar c = true) : isJsWs c = false := by
  cases hw : isJsWs c
  · rfl
  · exfalso
    have hall : wsChars.all (fun c => !isKeyChar c) = true := by decide
    have := List.all_eq_true.mp hall c (mem_wsChars_of_isJsWs hw)
    rw [h] at this
    cases this

theorem isKeyStart_isKeyChar {c : Char} (h : isKeyStart c = true) : isKeyChar c = true := by
  simp only [isKeyStart, Bool.or_eq_true, beq_iff_eq] at h
  simp only [isKeyChar, Bool.or_eq_true, beq_iff_eq]
  rcases h with h | h
  · exact Or.inl (Or.inl h)
  · exact Or.inr h

theorem takeWhile_append_all {p : Char → Bool} {xs ys : Str} (h : ∀ c ∈ xs, p c = true) :
    (xs ++ ys).takeWhile p = xs ++ ys.takeWhile p := by
  induction xs with
  | nil => simp
  | cons a l ih =>
    have ha := h a (List.mem_cons_self a l)
    have hl := ih (fun c hc => h c (List.mem_cons_of_mem a hc))
    simp [List.takeWhile_cons, ha, hl]

theorem dropWhile_append_all {p : Char → Bool} {xs ys : Str} (h : ∀ c ∈ xs, p c = true) :
    (xs ++ ys).dropWhile p = ys.dropWhile p := by
  induction xs with
  | nil => simp
  | cons a l ih =>
    have ha := h a (List.mem_cons_self a l)
    have hl := ih (fun c hc => h c (List.mem_cons_of_mem a hc))
    simp [List.dropWhile_cons, ha, hl]

theorem takeWhile_nil_of_head {p : Char → Bool} {ys : Str}
    (h : ∀ c, ys.head? = some c → p c = false) : ys.takeWhile p = [] := by
  cases ys with
  | nil => rfl
  | cons a l => simp [List.takeWhile_cons, h a rfl]

theorem dropWhile_id_of_head {p : Char → Bool} {ys : Str}
    (h : ∀ c, ys.head? = some c → p c = false) : ys.dropWhile p = ys := by
  cases ys with
  | nil => rfl
  | cons a l => simp [List.dropWhile_cons, h a rfl]

theorem trimStr_eq_self {s : Str} (h1 : ∀ c, s.head? = some c → isJsWs c = false)
    (h2 : ∀ c, s.getLast? = some c → isJsWs c = false) : trimStr s = s := by
  unfold trimStr
  rw [dropWhile_id_of_head h1]
  rw [dropWhile_id_of_head (fun c hc => h2 c (by rwa [List.head?_reverse] at hc))]
  exact List.reverse_reverse s

theorem splitNl_no_nl {s : Str} (h : '\n' ∉ s) : splitNl s = [s] := by
  induction s with
  | nil => rfl
  | cons c cs ih =>
    have hc : ¬c = '\n' := fun he => h (he ▸ List.mem_cons_self c cs)
    have hr : splitNl cs = [cs] := ih (fun hm => h (List.mem_cons_of_mem _ hm))
    simp [splitNl, hc, hr]

theorem splitNl_append_nl {xs ys : Str} (h : '\n' ∉ xs) :
    splitNl (xs ++ '\n' :: ys) = xs :: splitNl ys := by
  induction xs with
  | nil => simp [splitNl]
  | cons c cs ih =>
    have hc : ¬c = '\n' := fun he => h (he ▸ List.mem_cons_self c cs)
    have hr := ih (fun hm => h (List.mem_cons_of_mem _ hm))
    simp [splitNl, hc, hr]

theorem splitNl_joinNl {ls : List Str} (h0 : ls ≠ []) (h : ∀ l ∈ ls, '\n' ∉ l) :
    splitNl (joinNl ls) = ls := by
  induction ls with
  | nil => exact absurd rfl h0
  | cons l rest ih =>
    cases rest with
    | nil => simpa [joinNl] using splitNl_no_nl (h l (List.mem_cons_self l []))
    | cons l2 rest2 =>
      rw [show joinNl (l :: l2 :: rest2) = l ++ '\n' :: joinNl (l2 :: rest2) from rfl]
      rw [splitNl_append_nl (h l (List.mem_cons_self _ _))]
      rw [ih (by simp) (fun x hx => h x (List.mem_cons_of_mem _ hx))]

theorem hasOwnKey_iff_mem {env : List (Str × Str)} {k : Str} :
    hasOwnKey env k = true ↔ k ∈ keysOf env := by
  simp [hasOwnKey, keysOf, List.any_eq_true, List.mem_map]

theorem hasOwnKey_false_iff {env : List (Str × Str)} {k : Str} :
    hasOwnKey env k = false ↔ k ∉ keysOf env := by
  rw [← Bool.not_eq_true, not_iff_not]
  exact hasOwnKey_iff_mem

theorem protoKey_mem_protoProps : protoKey ∈ protoProps := by decide

theorem lookupEnv_eq_none {env : List (Str × Str)} {k : Str} (h : k ∉ keysOf env) :
    lookupEnv env k = none := by
  induction env with
  | nil => rfl
  | cons p ps ih =>
    have hne : ¬p.1 = k := fun he => h (List.mem_cons.mpr (Or.inl he.symm))
    have htl : k ∉ keysOf ps := fun hm => h (List.mem_cons.mpr (Or.inr hm))
    simp only [lookupEnv, if_neg hne]
    exact ih htl

theorem lookupEnv_isSome_of_mem {env : List (Str × Str)} {k : Str} (h : k ∈ keysOf env) :
    ∃ v, lookupEnv env k = some v := by
  induction env with
  | nil => simp [keysOf] at h
  | cons p ps ih =>
    by_cases hp : p.1 = k
    · exact ⟨p.2, by simp [lookupEnv, hp]⟩
    · rcases List.mem_cons.mp (show k ∈ p.1 :: keysOf ps from h) with h1 | h1
      · exact absurd h1.symm hp
      · obtain ⟨v, hv⟩ := ih h1
        exact ⟨v, by simp [lookupEnv, hp, hv]⟩

theorem lookupEnv_append (a b : List (Str × Str)) (k : Str) :
    lookupEnv (a ++ b) k =
      (match lookupEnv a k with
        | some v => some v
        | none => lookupEnv b k) := by
  induction a with
  | nil => simp [lookupEnv]
  | cons p ps ih =>
    by_cases hp : p.1 = k
    · simp [lookupEnv, hp]
    · simp [lookupEnv, hp, ih]

theorem lookupEnv_mapReplace_ne (env : List (Str × Str)) (k v k' : Str) (hk : ¬k' = k) :
    lookupEnv (env.map (fun p => if p.1 = k then (k, v) else p)) k' = lookupEnv env k' := by
  induction env with
  | nil => rfl
  | cons p ps ih =>
    by_cases hp : p.1 = k
    · have h1 : ¬k = k' := fun he => hk he.symm
      have h2 : ¬p.1 = k' := fun he => hk (by rw [← he, hp])
      simp only [List.map_cons, if_pos hp, lookupEnv, if_neg h1, if_neg h2, ih]
    · simp only [List.map_cons, if_neg hp, lookupEnv, ih]

theorem lookupEnv_mapReplace_eq (env : List (Str × Str)) (k v : Str)
    (hh : hasOwnKey env k = true) :
    lookupEnv (env.map (fun p => if p.1 = k then (k, v) else p)) k = some v := by
  induction env with
  | nil => simp [hasOwnKey] at hh
  | cons p ps ih =>
    by_cases hp : p.1 = k
    · simp [List.map_cons, if_pos hp, lookupEnv]
    · have hh' : hasOwnKey ps k = true := by simpa [hasOwnKey, List.any_cons, hp] using hh
      simp only [List.map_cons, if_neg hp, lookupEnv, if_neg hp, ih hh']

theorem lookupEnv_envDefine (env : List (Str × Str)) (k v k' : Str) :
    lookupEnv (envDefine env k v) k' = if k' = k then some v else lookupEnv env k' := by
  unfold envDefine
  cases hh : hasOwnKey env k with
  | true =>
    rw [if_pos rfl]
    by_cases hk : k' = k
    · subst hk
      rw [lookupEnv_mapReplace_eq env k' v hh, if_pos rfl]
    · rw [lookupEnv_mapReplace_ne env k v k' hk, if_neg hk]
  | false =>
    rw [if_neg (by simp)]
    rw [lookupEnv_append]
    by_cases hk : k' = k
    · subst hk
      rw [lookupEnv_eq_none (hasOwnKey_false_iff.mp hh)]
      simp [lookupEnv]
    · have hk2 : ¬k = k' := fun h => hk h.symm
      cases hl : lookupEnv env k' <;> simp [lookupEnv, hk, hk2, hl]

theorem envInsert_eq_envDefine {k : Str} (hk : k ≠ protoKey) (env : List (Str × Str))
    (v : Str) : envInsert env k v = envDefine env k v := by
  unfold envInsert envDefine
  cases hh : hasOwnKey env k with
  | true => rfl
  | false => simp [hk]

theorem lookupEnv_envInsert {k : Str} (hk : k ≠ protoKey) (env : List (Str × Str))
    (v k' : Str) :
    lookupEnv (envInsert env k v) k' = if k' = k then some v else lookupEnv env k' := by
  rw [envInsert_eq_envDefine hk]
  exact lookupEnv_envDefine env k v k'

/-- Last-wins lookup: the value the later entries of a spread override to. -/
def lookupLast : List (Str × Str) → Str → Option Str
  | [], _ => none
  | p :: ps, k =>
    match lookupLast ps k with
    | some v => some v
    | none => if p.1 = k then some p.2 else none

theorem lookupLast_eq_none {env : List (Str × Str)} {k : Str} (h : k ∉ keysOf env) :
    lookupLast env k = none := by
  induction env with
  | nil => rfl
  | cons p ps ih =>
    have hne : ¬p.1 = k := fun he => h (by simp [keysOf, he])
    have : lookupLast ps k = none := ih (fun hm => h (by simp [keysOf] at hm ⊢; exact Or.inr hm))
    simp [lookupLast, this, hne]

theorem lookupLast_eq_lookupEnv {env : List (Str × Str)} (h : (keysOf env).Nodup) (k : Str) :
    lookupLast env k = lookupEnv env k := by
  induction env with
  | nil => rfl
  | cons p ps ih =>
    have h2 : (keysOf ps).Nodup := (List.nodup_cons.mp (by simpa [keysOf] using h)).2
    have hni : p.1 ∉ keysOf ps := (List.nodup_cons.mp (by simpa [keysOf] using h)).1
    by_cases hp : p.1 = k
    · have : lookupLast ps k = none := lookupLast_eq_none (hp ▸ hni)
      simp [lookupLast, lookupEnv, this, hp]
    · cases hl : lookupLast ps k <;> simp [lookupLast, lookupEnv, hl, hp, ← ih h2, hl]

theorem lookupEnv_spreadInto (env : List (Str × Str)) :
    ∀ (acc : List (Str × Str)) (k : Str),
      lookupEnv (spreadInto acc env) k =
        (match lookupLast env k with
          | some v => some v
          | none => lookupEnv acc k) := by
  induction env with
  | nil => intro acc k; rfl
  | cons p ps ih =>
    intro acc k
    rw [show spreadInto acc (p :: ps) = spreadInto (envDefine acc p.1 p.2) ps from rfl, ih]
    rw [lookupEnv_envDefine]
    cases hl : lookupLast ps k with
    | some v => simp [lookupLast, hl]
    | none =>
      by_cases hp : p.1 = k
      · simp [lookupLast, hl, hp]
      · have : ¬k = p.1 := fun he => hp he.symm
        simp [lookupLast, hl, hp, this]

theorem lookupEnv_syncFold (s : List (Str × Str)) :
    ∀ (ms : List Str), (∀ x ∈ ms, x ≠ protoKey) →
      ∀ (t : List (Str × Str)) (k : Str),
        lookupEnv (ms.foldl (fun acc k => envInsert acc k ((lookupEnv s k).getD [])) t) k =
          if k ∈ ms then some ((lookupEnv s k).getD []) else lookupEnv t k := by
  intro ms
  induction ms with
  | nil => intro _ t k; simp
  | cons m ms' ih =>
    intro hms t k
    rw [List.foldl_cons, ih (fun x hx => hms x (List.mem_cons_of_mem _ hx))]
    by_cases hm : k ∈ ms'
    · simp [hm]
    · rw [lookupEnv_envInsert (hms m (List.mem_cons_self _ _))]
      by_cases hk : k = m
      · simp [hm, hk]
      · simp [hm, hk, List.mem_cons]

/-- C10 amended: for parsed mappings (duplicate-free key lists) none of whose
source keys is a property name of `Object.prototype`, the sync `preserve`
strategy branch defines the same key-to-value mapping as
`mergeEnv(source, target)`: same key set, same value at every key — preserve
is merge with the argument precedence swapped. A source key such as
`toString` that the `in` operator finds on the prototype chain breaks the
equivalence, see the counterexample. -/
theorem syncPreserve_eq_mergeEnv (s t : List (Str × Str))
    (hs : (keysOf s).Nodup) (ht : (keysOf t).Nodup)
    (hp : ∀ x ∈ keysOf s, x ∉ protoProps) (k : Str) :
    lookupEnv (syncPreserve s t) k = lookupEnv (mergeEnv [s, t]) k := by
  have hmerge : mergeEnv [s, t] = spreadInto (spreadInto [] s) t := rfl
  rw [hmerge, lookupEnv_spreadInto, lookupEnv_spreadInto]
  rw [lookupLast_eq_lookupEnv ht, lookupLast_eq_lookupEnv hs]
  unfold syncPreserve
  have hms : ∀ x ∈ getMissingKeys t s, x ≠ protoKey := fun x hx he =>
    hp x (List.mem_filter.mp hx).1 (he ▸ protoKey_mem_protoProps)
  rw [lookupEnv_syncFold s (getMissingKeys t s) hms]
  have hbase : lookupEnv (spreadInto [] t) k = lookupEnv t k := by
    rw [lookupEnv_spreadInto, lookupLast_eq_lookupEnv ht]
    cases lookupEnv t k <;> rfl
  rw [hbase]
  by_cases hkt : k ∈ keysOf t
  · have hnm : k ∉ getMissingKeys t s := by
      intro hm
      have h2 := (List.mem_filter.mp hm).2
      rw [Bool.not_eq_true'] at h2
      have hown : hasOwnKey t k = true := hasOwnKey_iff_mem.mpr hkt
      rw [inEnv, hown] at h2
      cases h2
    obtain ⟨v, hv⟩ := lookupEnv_isSome_of_mem hkt
    simp [hnm, hv]
  · have htnone : lookupEnv t k = none := lookupEnv_eq_none hkt
    by_cases hks : k ∈ keysOf s
    · have hm : k ∈ getMissingKeys t s := by
        refine List.mem_filter.mpr ⟨hks, ?_⟩
        rw [Bool.not_eq_true']
        rw [inEnv, hasOwnKey_false_iff.mpr hkt, decide_eq_false (hp k hks)]
        rfl
      obtain ⟨v, hv⟩ := lookupEnv_isSome_of_mem hks
      simp [hm, hv, htnone]
    · have hsnone : lookupEnv s k = none := lookupEnv_eq_none hks
      have hnm : k ∉ getMissingKeys t s := fun hm => hks (List.mem_filter.mp hm).1
      simp [hnm, htnone, hsnone, lookupEnv]

/-- Witness for C10 at a concrete source, target and key. -/
theorem syncPreserve_eq_mergeEnv_witness :
    lookupEnv
        (syncPreserve [("A".data, "1".data), ("B".data, "2".data)]
          [("B".data, "9".data), ("C".data, "3".data)]) "A".data =
      lookupEnv
        (mergeEnv
          [[("A".data, "1".data), ("B".data, "2".data)],
            [("B".data, "9".data), ("C".data, "3".data)]]) "A".data :=
  syncPreserve_eq_mergeEnv _ _ (by decide) (by decide) (by decide) _

/-- C10 counterexample: a source key named like an `Object.prototype`
property is dropped by preserve (the `in` test finds it on the prototype
chain) but kept by merge. -/
theorem syncPreserve_proto_chain_cex :
    syncPreserve [("toString".data, "x".data)] [] = [] ∧
      mergeEnv [[("toString".data, "x".data)], []] = [("toString".data, "x".data)] ∧
      lookupEnv (syncPreserve [("toString".data, "x".data)] []) "toString".data ≠
        lookupEnv (mergeEnv [[("toString".data, "x".data)], []]) "toString".data := by
  refine ⟨by decide, by decide, by decide⟩

theorem append_ne_of_head {p a b : Str} {c d : Char} (ha : a.head? = some c)
    (hb : b.head? = some d) (hcd : c ≠ d) : p ++ a ≠ p ++ b := fun he => by
  rw [List.append_cancel_left he, hb] at ha
  exact hcd (Option.some.inj ha.symm)

theorem dupKeyMsg_ne_emptyKeyMsg (n : Nat) (k : Str) : dupKeyMsg n k ≠ emptyKeyMsg n := by
  unfold dupKeyMsg emptyKeyMsg
  exact append_ne_of_head rfl rfl (by decide)

theorem dupKeyMsg_ne_invalidKeyMsg (n : Nat) (k k' : Str) :
    dupKeyMsg n k ≠ invalidKeyMsg n k' := by
  unfold dupKeyMsg invalidKeyMsg
  exact append_ne_of_head rfl rfl (by decide)

theorem invalidKeyMsg_ne_unquotedValueMsg (n : Nat) (k k' v : Str) :
    invalidKeyMsg n k ≠ unquotedValueMsg n k' v := by
  unfold invalidKeyMsg unquotedValueMsg
  exact append_ne_of_head rfl rfl (by decide)

theorem dupKeyMsg_ne_unquotedValueMsg (n : Nat) (k k' v : Str) :
    dupKeyMsg n k ≠ unquotedValueMsg n k' v := by
  unfold dupKeyMsg unquotedValueMsg
  exact append_ne_of_head rfl rfl (by decide)

theorem mem_of_head?_eq {c : Char} {l : Str} (h : l.head? = some c) : c ∈ l := by
  cases l with
  | nil => cases h
  | cons a l =>
    injection h with h1
    subst h1
    exact List.mem_cons_self _ _

theorem mem_of_getLast?_eq {c : Char} {l : Str} (h : l.getLast? = some c) : c ∈ l := by
  rw [← List.head?_reverse] at h
  exact List.mem_reverse.mp (mem_of_head?_eq h)

theorem trimStr_of_all_keyChar {k : Str} (h : k.all isKeyChar = true) : trimStr k = k :=
  trimStr_eq_self
    (fun c hc => isKeyChar_not_ws (List.all_eq_true.mp h c (mem_of_head?_eq hc)))
    (fun c hc => isKeyChar_not_ws (List.all_eq_true.mp h c (mem_of_getLast?_eq hc)))

theorem envLineMatch_key_shape {s k v : Str} (h : envLineMatch s = some (k, v)) :
    k.all isKeyChar = true ∧ k ≠ [] := by
  unfold envLineMatch at h
  split at h
  next k0 ks v' htake hdrop =>
    split at h
    next hstart =>
      obtain ⟨h1, h2⟩ := Prod.mk.injEq _ _ _ _ ▸ Option.some.inj h
      subst h1
      refine ⟨List.all_eq_true.mpr (fun c hc => ?_), by simp⟩
      exact List.mem_takeWhile_imp (htake ▸ hc)
    next => cases h
  next => cases h

theorem isEmpty_false_of_ne {l : Str} (h : l ≠ []) : l.isEmpty = false := by
  cases l with
  | nil => exact absurd rfl h
  | cons a t => rfl

/-- C6: validate("A=1\nA=2") yields exactly one error, referencing line 2;
and in general validateKey pushes a duplicate-key message for a key exactly
when that key is already in the seen set (which only valid, first
occurrences enter) — a first occurrence is never flagged as a duplicate. -/
theorem validate_duplicate_second_only :
    validateEnvContent "A=1\nA=2".data = [dupKeyMsg 2 "A".data] ∧
      ∀ (n : Nat) (keys : List Str) (k : Str),
        (dupKeyMsg n k ∈ (validateKey k n keys).2 ↔ k ∈ keys ∧ envKeyTest k = true) := by
  refine ⟨by decide, ?_⟩
  intro n keys k
  unfold validateKey
  by_cases hempty : k.isEmpty = true
  · have hk0 : k = [] := by
      cases k with
      | nil => rfl
      | cons a l => cases hempty
    subst hk0
    rw [if_pos hempty]
    simp [dupKeyMsg_ne_emptyKeyMsg n [], envKeyTest]
  · rw [if_neg hempty]
    cases htest : envKeyTest k with
    | false =>
      rw [if_pos (show (!false) = true from rfl)]
      simp [dupKeyMsg_ne_invalidKeyMsg n k k]
    | true =>
      rw [if_neg (show ¬(!true) = true by simp)]
      by_cases hmem : k ∈ keys
      · rw [if_pos hmem]
        simp [hmem]
      · rw [if_neg hmem]
        simp [hmem]

/-- C4 corrected: validate("abc=1") does produce an invalid-key error,
because PATTERNS.ENV_KEY is the case-sensitive `^[A-Z_][A-Z0-9_]*$`; and for
every line that matches the KEY=VALUE pattern, the validator pushes the
invalid-key message exactly when the extracted key fails that uppercase-only
test. -/
theorem invalidKey_error_iff_upperKeyTest :
    validateEnvContent "abc=1".data = [invalidKeyMsg 1 "abc".data] ∧
      ∀ (n : Nat) (keys : List Str) (trimmed k1 v1 : Str),
        envLineMatch trimmed = some (k1, v1) →
        (invalidKeyMsg n (trimStr k1) ∈ (validateLineStep n keys trimmed).2 ↔
          envKeyTest (trimStr k1) = false) := by
  refine ⟨by decide, ?_⟩
  intro n keys trimmed k1 v1 hmatch
  obtain ⟨hall, hne⟩ := envLineMatch_key_shape hmatch
  have htrim : trimStr k1 = k1 := trimStr_of_all_keyChar hall
  have hkem : (trimStr k1).isEmpty = false := by
    rw [htrim]; exact isEmpty_false_of_ne hne
  have hstep : (validateLineStep n keys trimmed).2 =
      (validateKey (trimStr k1) n keys).2 ++
        (if !(trimStr v1).isEmpty && !isQuoted (trimStr v1) && (trimStr v1).any isJsWs
          then [unquotedValueMsg n (trimStr k1) (trimStr v1)] else []) := by
    unfold validateLineStep
    rw [hmatch]
  have hnot_e2 : invalidKeyMsg n (trimStr k1) ∉
      (if !(trimStr v1).isEmpty && !isQuoted (trimStr v1) && (trimStr v1).any isJsWs
        then [unquotedValueMsg n (trimStr k1) (trimStr v1)] else []) := by
    split
    · simp [invalidKeyMsg_ne_unquotedValueMsg]
    · simp
  rw [hstep]
  unfold validateKey
  rw [if_neg (by rw [hkem]; simp)]
  cases htest : envKeyTest (trimStr k1) with
  | false =>
    rw [if_pos (show (!false) = true from rfl)]
    simp [List.mem_append, hnot_e2]
  | true =>
    rw [if_neg (show ¬(!true) = true by simp)]
    by_cases hmem : trimStr k1 ∈ keys
    · rw [if_pos hmem]
      simp only [List.mem_append, List.mem_singleton]
      constructor
      · rintro (h | h)
        · exact absurd h (dupKeyMsg_ne_invalidKeyMsg n (trimStr k1) (trimStr k1)).symm
        · exact absurd h hnot_e2
      · intro h; cases h
    · rw [if_neg hmem]
      simp only [List.nil_append]
      constructor
      · intro h; exact absurd h hnot_e2
      · intro h; cases h

/-- C7 corrected: for a KEY=VALUE line whose trimmed value is non-empty, not
fully quote-wrapped and contains whitespace, the validation pass pushes the
unquoted-value message for that line; and lintCommand surfaces every
validation message with severity error, never warning. -/
theorem unquoted_value_surfaced_as_error :
    (∀ (n : Nat) (keys : List Str) (trimmed k1 v1 : Str),
        envLineMatch trimmed = some (k1, v1) →
        trimStr v1 ≠ [] →
        isQuoted (trimStr v1) = false →
        (trimStr v1).any isJsWs = true →
        unquotedValueMsg n (trimStr k1) (trimStr v1) ∈ (validateLineStep n keys trimmed).2) ∧
      ∀ (content : Str) (n : Nat) (m : Str) (sev : Severity),
        (n, m, sev) ∈ lintValidationIssues content → sev = Severity.error := by
  constructor
  · intro n keys trimmed k1 v1 hmatch hv1 hv2 hv3
    have hstep : (validateLineStep n keys trimmed).2 =
        (validateKey (trimStr k1) n keys).2 ++
          (if !(trimStr v1).isEmpty && !isQuoted (trimStr v1) && (trimStr v1).any isJsWs
            then [unquotedValueMsg n (trimStr k1) (trimStr v1)] else []) := by
      unfold validateLineStep
      rw [hmatch]
    rw [hstep]
    have hcond : (!(trimStr v1).isEmpty && !isQuoted (trimStr v1) &&
        (trimStr v1).any isJsWs) = true := by
      rw [isEmpty_false_of_ne hv1, hv2, hv3]
      rfl
    rw [if_pos hcond]
    exact List.mem_append_right _ (List.mem_singleton.mpr rfl)
  · intro content n m sev hmem
    unfold lintValidationIssues at hmem
    obtain ⟨e, -, he⟩ := List.mem_map.mp hmem
    cases he
    rfl

/-- C7 counterexample: on "A=b c" the lint issue carrying the validator's
unquoted-value message has severity error, and no warning-severity issue
carries that message (the warning lint adds is a different message). -/
theorem lint_unquoted_severity_cex :
    lintIssues "A=b c".data =
      [(1, "Unquoted value with spaces - consider quoting: A=\"b c\"".data, Severity.error),
        (1, quoteSuggestMsg, Severity.warning)] ∧
      (1, "Unquoted value with spaces - consider quoting: A=\"b c\"".data, Severity.warning) ∉
        lintIssues "A=b c".data := by
  constructor
  · decide
  · decide

/-- C8 counterexample: a comment line inside an open continuation is not
skipped; its text is appended to the accumulated value. -/
theorem comment_in_continuation_cex :
    parseEnvContent "KEY=a\\\n#c".data = [("KEY".data, "a#c".data)] ∧
      parseEnvContent "KEY=a\\\n#c".data ≠ [("KEY".data, "a".data)] := by
  constructor
  · decide
  · decide

/-- C8 amended: while a continuation is open the parser consumes every line,
comments included: any single comment line without a trailing backslash
terminates the continuation and its full text is appended to the
accumulated value. -/
theorem comment_consumed_by_continuation (c : Str)
    (hcomment : isComment (trimStr c) = true) (hnl : '\n' ∉ c)
    (hbs : endsBS c = false) :
    parseEnvContent ("KEY=a\\\n".data ++ c) = [("KEY".data, processValue ("a".data ++ c))] := by
  have hsplit : splitNl ("KEY=a\\\n".data ++ c) = "KEY=a\\".data :: splitNl c := by
    rw [show "KEY=a\\\n".data ++ c = "KEY=a\\".data ++ '\n' :: c from rfl]
    exact splitNl_append_nl (by decide)
  unfold parseEnvContent
  rw [hsplit, splitNl_no_nl hnl]
  rw [show parseLines ["KEY=a\\".data, c] [] none =
      parseLines [c] [] (some ("KEY".data, "a".data)) from rfl]
  have hne : ¬("KEY".data = protoKey) := by decide
  simp [parseLines, hbs, envInsert, hasOwnKey, hne]

/-- Witness for C8 at the concrete comment line `#c`. -/
theorem comment_consumed_by_continuation_witness :
    parseEnvContent ("KEY=a\\\n".data ++ "#c".data) =
      [("KEY".data, processValue ("a".data ++ "#c".data))] :=
  comment_consumed_by_continuation "#c".data (by decide) (by decide) (by decide)

/-- C1: getDifferentKeys filters the union of both key sets, so a key present
in only one mapping also lands in the result (`undefined !== value`); on the
spec's example it returns [X, Y, Z], not [Y]. -/
theorem getDifferentKeys_includes_one_sided :
    getDifferentKeys [("X".data, "1".data), ("Y".data, "2".data)]
        [("Y".data, "3".data), ("Z".data, "4".data)] =
      ["X".data, "Y".data, "Z".data] ∧
      getDifferentKeys [("X".data, "1".data), ("Y".data, "2".data)]
        [("Y".data, "3".data), ("Z".data, "4".data)] ≠ ["Y".data] := by
  constructor
  · decide
  · decide

/-- C2: the first continuation junction receives no inserted newline (the
initial `currentValue` drops the backslash and nothing more), while later
junctions do receive one. -/
theorem parse_continuation_first_junction :
    parseEnvContent "KEY=line1\\\nline2".data = [("KEY".data, "line1line2".data)] ∧
      parseEnvContent "KEY=a\\\nb\\\nc".data = [("KEY".data, "ab\nc".data)] := by
  constructor
  · decide
  · decide

/-- C3: a line `export FOO=bar` never matches PATTERNS.ENV_LINE (the space
before `=` defeats the key class), so parseEnvContent silently drops it —
the export branch inside the match is unreachable — while the validator's
separate export path accepts the same line without diagnostics. -/
theorem parse_drops_export_lines :
    parseEnvContent "export FOO=bar".data = [] ∧
      validateEnvContent "export FOO=bar".data = [] := by
  constructor
  · decide
  · decide

theorem parseLinesO_total :
    ∀ (lines : List Str) (env : List (Str × Str)) (st : Option (Str × Str)),
      parseLinesO lines env st = some (parseLines lines env st) := by
  intro lines
  induction lines with
  | nil =>
    intro env st
    cases st with
    | none => rfl
    | some p => cases p; rfl
  | cons line rest ih =>
    intro env st
    cases st with
    | some p =>
      obtain ⟨k, v⟩ := p
      cases line with
      | nil => simp [parseLinesO, parseLines, endsBS, ih]
      | cons a l =>
        by_cases hbs : endsBS (a :: l) = true
        · simp [parseLinesO, parseLines, hbs, ih]
        · simp [parseLinesO, parseLines, hbs, ih]
    | none =>
      by_cases h1 : (trimStr line).isEmpty = true
      · simp [parseLinesO, parseLines, h1, ih]
      · by_cases h2 : isComment (trimStr line) = true
        · simp [parseLinesO, parseLines, h1, h2, ih]
        · cases hm : envLineMatch (trimStr line) with
          | none => simp [parseLinesO, parseLines, h1, h2, hm, ih]
          | some kv =>
            obtain ⟨k1, v1⟩ := kv
            cases he : exportMatch (trimStr line) with
            | some ev =>
              obtain ⟨ek, evv⟩ := ev
              simp [parseLinesO, parseLines, h1, h2, hm, he, ih]
            | none =>
              rcases hval : trimStr v1 with _ | ⟨a, l⟩
              · simp [parseLinesO, parseLines, h1, h2, hm, he, hval, endsBS, ih]
              · by_cases hbs : endsBS (a :: l) = true
                · simp [parseLinesO, parseLines, h1, h2, hm, he, hval, hbs, ih]
                · simp [parseLinesO, parseLines, h1, h2, hm, he, hval, hbs, ih]

theorem validateLinesO_total :
    ∀ (lines : List Str) (n : Nat) (keys : List Str),
      validateLinesO lines n keys = some (validateLines lines n keys) := by
  intro lines
  induction lines with
  | nil => intro n keys; rfl
  | cons line rest ih =>
    intro n keys
    cases hw : (if endsBS line then
        match line with
        | [] => none
        | _ :: _ => some line.dropLast
      else some line) with
    | none =>
      exfalso
      cases line with
      | nil => simp [endsBS] at hw
      | cons a l =>
        by_cases hbs : endsBS (a :: l) = true
        · rw [if_pos hbs] at hw; cases hw
        · rw [if_neg hbs] at hw; cases hw
    | some w =>
      by_cases hc : ((trimStr line).isEmpty || isComment (trimStr line)) = true
      · simp [validateLinesO, validateLines, hw, hc, ih]
      · simp [validateLinesO, validateLines, hw, hc, ih]

/-- C9: parseEnvContent and validateEnvContent return normally on every
input: the defensive variants, in which any out-of-range string operation
would surface as `none` (the analogue of a thrown exception), agree with the
total functions on all content; and a non-blank, non-comment line matching
neither the KEY=VALUE nor the export pattern is reported by the validator as
an invalid-syntax diagnostic while the parser silently skips it. -/
theorem parse_validate_never_throw :
    (∀ content : Str,
        parseEnvContentO content = some (parseEnvContent content) ∧
          validateEnvContentO content = some (validateEnvContent content)) ∧
      ∀ (n : Nat) (keys : List Str) (line : List Char) (restL : List Str)
        (env : List (Str × Str)),
        (trimStr line).isEmpty = false → isComment (trimStr line) = false →
        envLineMatch (trimStr line) = none → exportMatch (trimStr line) = none →
        validateLineStep n keys (trimStr line) = (keys, [invalidSyntaxMsg n]) ∧
          parseLines (line :: restL) env none = parseLines restL env none := by
  constructor
  · intro content
    exact ⟨parseLinesO_total _ _ _, validateLinesO_total _ _ _⟩
  · intro n keys line restL env h1 h2 hm he
    constructor
    · unfold validateLineStep
      rw [hm, he]
    · simp [parseLines, h1, h2, hm]

theorem shouldQuote_false_mem {v : Str} (h : shouldQuoteValue v = false) {c : Char}
    (hm : c ∈ v) :
    isJsWs c = false ∧ c ≠ '=' ∧ c ≠ sqChar ∧ c ≠ '"' ∧ c ≠ '$' ∧ c ≠ btChar ∧
      c ≠ '\\' := by
  unfold shouldQuoteValue at h
  have h2 := List.any_eq_false.mp h c hm
  simp only [Bool.or_eq_true, beq_iff_eq, not_or] at h2
  obtain ⟨⟨⟨⟨⟨⟨hws, he⟩, hsq⟩, hdq⟩, hdl⟩, hbt⟩, hbs⟩ := h2
  exact ⟨Bool.eq_false_iff.mpr hws, he, hsq, hdq, hdl, hbt, hbs⟩

theorem goodKey_unpack {k : Str} (h : goodKey k = true) :
    k ≠ [] ∧ k.all isKeyChar = true ∧ ∀ c, k.head? = some c → isKeyStart c = true := by
  cases k with
  | nil => cases h
  | cons c cs =>
    have h2 : isKeyStart c = true ∧ cs.all isKeyChar = true := by
      simpa [goodKey, Bool.and_eq_true] using h
    refine ⟨by simp, ?_, ?_⟩
    · simp [List.all_cons, isKeyStart_isKeyChar h2.1, h2.2]
    · intro d hd
      injection hd with h3
      exact h3 ▸ h2.1

theorem goodKey_mem {k : Str} (h : goodKey k = true) : ∀ c ∈ k, isKeyChar c = true :=
  fun c hc => List.all_eq_true.mp (goodKey_unpack h).2.1 c hc

theorem quotedVal_no_nl {v : Str} (hv : '\n' ∉ v) : '\n' ∉ quotedVal v := by
  unfold quotedVal
  split
  · intro hm
    rcases List.mem_cons.mp hm with h | h
    · exact absurd h (by decide)
    · rcases List.mem_append.mp h with h | h
      · exact hv h
      · exact absurd (List.mem_singleton.mp h) (by decide)
  · exact hv

theorem quotedVal_head_not_ws {v : Str} :
    ∀ c, (quotedVal v).head? = some c → isJsWs c = false := by
  intro c hc
  unfold quotedVal at hc
  by_cases hq : shouldQuoteValue v = true
  · rw [if_pos hq] at hc
    injection hc with h
    exact h ▸ (by decide)
  · rw [if_neg hq] at hc
    exact (shouldQuote_false_mem (Bool.eq_false_iff.mpr hq) (mem_of_head?_eq hc)).1

theorem quotedVal_last {v : Str} :
    ∀ c, (quotedVal v).getLast? = some c → isJsWs c = false ∧ c ≠ '\\' := by
  intro c hc
  unfold quotedVal at hc
  by_cases hq : shouldQuoteValue v = true
  · rw [if_pos hq] at hc
    have he : ('"' :: (v ++ ['"'])).getLast? = some '"' := by
      rw [show ('"' :: (v ++ ['"'])) = ('"' :: v) ++ ['"'] from rfl]
      exact List.getLast?_concat _
    rw [he] at hc
    injection hc with h
    subst h
    exact ⟨by decide, by decide⟩
  · rw [if_neg hq] at hc
    have hf := shouldQuote_false_mem (Bool.eq_false_iff.mpr hq) (mem_of_getLast?_eq hc)
    exact ⟨hf.1, hf.2.2.2.2.2.2⟩

theorem trimStr_quotedVal (v : Str) : trimStr (quotedVal v) = quotedVal v :=
  trimStr_eq_self quotedVal_head_not_ws (fun c hc => (quotedVal_last c hc).1)

theorem endsBS_quotedVal (v : Str) : endsBS (quotedVal v) = false := by
  unfold endsBS
  cases hl : (quotedVal v).getLast? with
  | none => rfl
  | some c =>
    have hne := (quotedVal_last c hl).2
    rw [beq_eq_false_iff_ne]
    exact fun h => hne (Option.some.inj h)

theorem processValue_quotedVal (v : Str) : processValue (quotedVal v) = v := by
  by_cases hq : shouldQuoteValue v = true
  · unfold quotedVal
    rw [if_pos hq]
    unfold processValue
    have hlast : ('"' :: (v ++ ['"'])).getLast? = some '"' := by
      rw [show ('"' :: (v ++ ['"'])) = ('"' :: v) ++ ['"'] from rfl]
      exact List.getLast?_concat _
    rw [if_pos (by rw [hlast]; rfl)]
    rw [show ('"' :: (v ++ ['"'])).dropLast.tail = (('"' :: v) ++ ['"']).dropLast.tail from rfl]
    rw [List.dropLast_concat]
    rfl
  · have hq' : shouldQuoteValue v = false := Bool.eq_false_iff.mpr hq
    unfold quotedVal
    rw [if_neg hq]
    unfold processValue
    cases v with
    | nil => rfl
    | cons c cs =>
      have hf := shouldQuote_false_mem hq' (List.mem_cons_self c cs)
      have e1 : ((c :: cs).head? == some '"') = false := by
        rw [beq_eq_false_iff_ne]
        exact fun h => hf.2.2.2.1 (Option.some.inj h)
      have e2 : ((c :: cs).head? == some sqChar) = false := by
        rw [beq_eq_false_iff_ne]
        exact fun h => hf.2.2.1 (Option.some.inj h)
      rw [if_neg (by rw [e1, e2]; exact Bool.false_ne_true)]

theorem no_nl_of_all_dot {v : Str} (hv : v.all isDotChar = true) : '\n' ∉ v := by
  intro hm
  have h2 := List.all_eq_true.mp hv _ hm
  rw [show isDotChar '\n' = false from by decide] at h2
  cases h2

theorem quotedVal_all_dot {v : Str} (hv : v.all isDotChar = true) :
    (quotedVal v).all isDotChar = true := by
  unfold quotedVal
  split
  · simp [List.all_cons, List.all_append, hv]
    decide
  · exact hv

theorem getLast?_append_cons (xs : Str) (y : Char) (ys : Str) :
    (xs ++ y :: ys).getLast? = (y :: ys).getLast? := by
  rw [← List.head?_reverse, ← List.head?_reverse, List.reverse_append]
  cases hr : (y :: ys).reverse with
  | nil => exact absurd hr (by simp)
  | cons b bs => simp [hr]

theorem envLineMatch_stringifyLine {k v : Str} (hk : goodKey k = true)
    (hdot : v.all isDotChar = true) :
    envLineMatch (stringifyLine (k, v)) = some (k, quotedVal v) := by
  cases k with
  | nil => cases hk
  | cons k0 ks =>
    have hgk : isKeyStart k0 = true ∧ ks.all isKeyChar = true := by
      simpa [goodKey, Bool.and_eq_true] using hk
    have hallmem : ∀ c ∈ k0 :: ks, isKeyChar c = true := goodKey_mem hk
    unfold envLineMatch
    rw [show stringifyLine (k0 :: ks, v) = (k0 :: ks) ++ '=' :: quotedVal v from rfl]
    rw [dropWhile_id_of_head (fun c hc => by
      injection hc with h
      exact h ▸ isKeyChar_not_ws (isKeyStart_isKeyChar hgk.1))]
    rw [takeWhile_append_all hallmem, dropWhile_append_all hallmem]
    rw [takeWhile_nil_of_head (p := isKeyChar) (fun c hc => by
      injection hc with h
      exact h ▸ (by decide))]
    rw [dropWhile_id_of_head (p := isKeyChar) (fun c hc => by
      injection hc with h
      exact h ▸ (by decide))]
    simp [hgk.1, quotedVal_all_dot hdot]

theorem stripCI_no_eq {pat : Str} (hpat : ∀ c ∈ pat, ciEq c '=' = false) :
    ∀ (k qv r : Str), (∀ c ∈ k, c ≠ '=') → stripCI pat (k ++ '=' :: qv) = some r →
      pat.length ≤ k.length ∧ r = k.drop pat.length ++ '=' :: qv := by
  induction pat with
  | nil =>
    intro k qv r _ h
    injection h with h
    exact ⟨Nat.zero_le _, by simpa using h.symm⟩
  | cons p ps ih =>
    intro k qv r hk h
    cases k with
    | nil =>
      have hne := hpat p (List.mem_cons_self _ _)
      rw [show stripCI (p :: ps) ([] ++ '=' :: qv) =
          (if ciEq p '=' then stripCI ps qv else none) from rfl] at h
      rw [if_neg (by rw [hne]; exact Bool.false_ne_true)] at h
      cases h
    | cons c kk =>
      rw [show stripCI (p :: ps) ((c :: kk) ++ '=' :: qv) =
          (if ciEq p c then stripCI ps (kk ++ '=' :: qv) else none) from rfl] at h
      by_cases hpc : ciEq p c = true
      · rw [if_pos hpc] at h
        obtain ⟨h1, h2⟩ := ih (fun d hd => hpat d (List.mem_cons_of_mem _ hd)) kk qv r
          (fun d hd => hk d (List.mem_cons_of_mem _ hd)) h
        exact ⟨Nat.succ_le_succ h1, by simpa using h2⟩
      · rw [if_neg hpc] at h
        cases h

theorem exportMatch_stringifyLine {k v : Str} (hk : goodKey k = true) :
    exportMatch (stringifyLine (k, v)) = none := by
  cases k with
  | nil => cases hk
  | cons k0 ks =>
    have hgk : isKeyStart k0 = true ∧ ks.all isKeyChar = true := by
      simpa [goodKey, Bool.and_eq_true] using hk
    have hallmem : ∀ c ∈ k0 :: ks, isKeyChar c = true := goodKey_mem hk
    unfold exportMatch
    rw [show stringifyLine (k0 :: ks, v) = (k0 :: ks) ++ '=' :: quotedVal v from rfl]
    rw [dropWhile_id_of_head (fun c hc => by
      injection hc with h
      exact h ▸ isKeyChar_not_ws (isKeyStart_isKeyChar hgk.1))]
    cases hs : stripCI "export".data ((k0 :: ks) ++ '=' :: quotedVal v) with
    | none => rfl
    | some r =>
      obtain ⟨hlen, hr⟩ := stripCI_no_eq (by decide) (k0 :: ks) (quotedVal v) r
        (fun c hc => ne_of_bool_distinct (hallmem c hc) (by decide : isKeyChar '=' = false)) hs
      subst hr
      have hdropall : ∀ c ∈ (k0 :: ks).drop ("export".data.length), isKeyChar c = true :=
        fun c hc => hallmem c (List.mem_of_mem_drop hc)
      have hne_all : ∀ c ∈ (k0 :: ks).drop ("export".data.length), (!(c == '=')) = true := by
        intro c hc
        have := ne_of_bool_distinct (hdropall c hc) (by decide : isKeyChar '=' = false)
        simp [this]
      simp only [exportTail]
      rw [takeWhile_append_all hne_all, dropWhile_append_all hne_all]
      rw [takeWhile_nil_of_head (p := fun c => !(c == '=')) (fun c hc => by
        injection hc with h
        subst h
        rfl)]
      rw [dropWhile_id_of_head (p := fun c => !(c == '=')) (fun c hc => by
        injection hc with h
        subst h
        rfl)]
      have hpw : (((k0 :: ks).drop ("export".data.length)) ++ ([] : Str)).takeWhile isJsWs
          = [] := by
        rw [List.append_nil]
        exact takeWhile_nil_of_head
          (fun c hc => isKeyChar_not_ws (hdropall c (mem_of_head?_eq hc)))
      simp only [hpw]
      simp [hpw]

theorem trimStr_stringifyLine {k v : Str} (hk : goodKey k = true) :
    trimStr (stringifyLine (k, v)) = stringifyLine (k, v) := by
  cases k with
  | nil => cases hk
  | cons k0 ks =>
    have hgk : isKeyStart k0 = true ∧ ks.all isKeyChar = true := by
      simpa [goodKey, Bool.and_eq_true] using hk
    apply trimStr_eq_self
    · intro c hc
      rw [show stringifyLine (k0 :: ks, v) = (k0 :: ks) ++ '=' :: quotedVal v from rfl] at hc
      injection hc with h
      exact h ▸ isKeyChar_not_ws (isKeyStart_isKeyChar hgk.1)
    · intro c hc
      rw [show stringifyLine (k0 :: ks, v) = (k0 :: ks) ++ '=' :: quotedVal v from rfl,
        getLast?_append_cons] at hc
      cases hV : quotedVal v with
      | nil =>
        rw [hV] at hc
        injection hc with h
        exact h ▸ (by decide)
      | cons b bs =>
        rw [hV, List.getLast?_cons_cons] at hc
        exact (quotedVal_last c (by rw [hV]; exact hc)).1

theorem stringifyLine_isEmpty {k v : Str} (hk : goodKey k = true) :
    (stringifyLine (k, v)).isEmpty = false := by
  cases k with
  | nil => cases hk
  | cons k0 ks => rfl

theorem isComment_stringifyLine {k v : Str} (hk : goodKey k = true) :
    isComment (stringifyLine (k, v)) = false := by
  cases k with
  | nil => cases hk
  | cons k0 ks =>
    have hgk : isKeyStart k0 = true ∧ ks.all isKeyChar = true := by
      simpa [goodKey, Bool.and_eq_true] using hk
    unfold isComment
    rw [show stringifyLine (k0 :: ks, v) = (k0 :: ks) ++ '=' :: quotedVal v from rfl]
    rw [dropWhile_id_of_head (fun c hc => by
      injection hc with h
      exact h ▸ isKeyChar_not_ws (isKeyStart_isKeyChar hgk.1))]
    have hne : k0 ≠ '#' :=
      ne_of_bool_distinct (isKeyStart_isKeyChar hgk.1) (by decide : isKeyChar '#' = false)
    rw [show ((k0 :: ks) ++ '=' :: quotedVal v).head? = some k0 from rfl]
    rw [beq_eq_false_iff_ne]
    exact fun h => hne (Option.some.inj h)

theorem stringifyLine_no_nl {k v : Str} (hk : goodKey k = true) (hv : '\n' ∉ v) :
    '\n' ∉ stringifyLine (k, v) := by
  cases k with
  | nil => cases hk
  | cons k0 ks =>
    intro hm
    rw [show stringifyLine (k0 :: ks, v) = (k0 :: ks) ++ '=' :: quotedVal v from rfl] at hm
    rcases List.mem_append.mp hm with h | h
    · have := goodKey_mem hk '\n' h
      rw [show isKeyChar '\n' = false from by decide] at this
      cases this
    · rcases List.mem_cons.mp h with h | h
      · exact absurd h (by decide)
      · exact quotedVal_no_nl hv h

theorem envInsert_not_has {env : List (Str × Str)} {k : Str} (h : hasOwnKey env k = false)
    (hk : k ≠ protoKey) (v : Str) : envInsert env k v = env ++ [(k, v)] := by
  unfold envInsert
  simp [h, hk]

theorem hasOwnKey_append (a b : List (Str × Str)) (k : Str) :
    hasOwnKey (a ++ b) k = (hasOwnKey a k || hasOwnKey b k) := by
  simp [hasOwnKey, List.any_append]

theorem parseLines_stringifyLine_step (k v : Str) (hk : goodKey k = true)
    (hdot : v.all isDotChar = true)
    (rest : List Str) (env : List (Str × Str)) :
    parseLines (stringifyLine (k, v) :: rest) env none =
      parseLines rest (envInsert env k v) none := by
  have htrim := trimStr_stringifyLine (v := v) hk
  have hmatch := envLineMatch_stringifyLine (v := v) hk hdot
  have hexp := exportMatch_stringifyLine (v := v) hk
  have hkeytrim : trimStr k = k := trimStr_of_all_keyChar (goodKey_unpack hk).2.1
  have hvaltrim := trimStr_quotedVal v
  have hempty := stringifyLine_isEmpty (v := v) hk
  have hcomm := isComment_stringifyLine (v := v) hk
  have hends := endsBS_quotedVal v
  have hproc := processValue_quotedVal v
  simp only [parseLines]
  rw [htrim, hempty, hcomm, hmatch, hexp]
  simp [hkeytrim, hvaltrim, hends, hproc]

theorem parseLines_stringify_go :
    ∀ (m : List (Str × Str)) (env : List (Str × Str)),
      (∀ p ∈ m, goodKey p.1 = true ∧ p.1 ≠ protoKey ∧ p.2.all isDotChar = true) →
      (keysOf m).Nodup →
      (∀ p ∈ m, hasOwnKey env p.1 = false) →
      parseLines (m.map stringifyLine) env none = env ++ m := by
  intro m
  induction m with
  | nil => intro env _ _ _; simp [parseLines]
  | cons p m' ih =>
    intro env hgood hnodup hdisj
    obtain ⟨k, v⟩ := p
    have hp := hgood (k, v) (List.mem_cons_self _ _)
    rw [List.map_cons]
    rw [parseLines_stringifyLine_step k v hp.1 hp.2.2]
    rw [envInsert_not_has (hdisj (k, v) (List.mem_cons_self _ _)) hp.2.1 v]
    have hnodup2 := List.nodup_cons.mp (show (k :: keysOf m').Nodup from hnodup)
    rw [ih (env ++ [(k, v)]) (fun q hq => hgood q (List.mem_cons_of_mem _ hq)) hnodup2.2
      (fun q hq => ?_)]
    · rw [List.append_assoc]
      rfl
    · rw [hasOwnKey_append, hdisj q (List.mem_cons_of_mem _ hq)]
      have hq1 : ¬k = q.1 := fun he =>
        hnodup2.1 (he ▸ List.mem_map.mpr ⟨q, hq, rfl⟩)
      simp [hasOwnKey, hq1]

/-- C5 amended: for an EnvMapping with duplicate-free keys, every key in the
character set `[A-Za-z_][A-Za-z0-9_]*` other than `__proto__`, and every
value free of line-terminator characters (`\n`, `\r`, U+2028, U+2029),
parse(stringify(m)) returns exactly m — for values needing quoting and
values needing none alike. A key outside that set, the key `__proto__`
(whose assignment is a silent no-op), or a value containing a line
terminator (which the `(.*)$` of ENV_LINE rejects, or which splits the
emitted line) loses or corrupts the entry, see the counterexample. -/
theorem parse_stringify_roundTrip (m : List (Str × Str))
    (hnodup : (keysOf m).Nodup)
    (hgood : ∀ p ∈ m, goodKey p.1 = true ∧ p.1 ≠ protoKey ∧ p.2.all isDotChar = true) :
    parseEnvContent (stringifyEnv m) = m := by
  cases m with
  | nil => rfl
  | cons p m' =>
    unfold parseEnvContent stringifyEnv
    rw [splitNl_joinNl (by simp) (fun l hl => by
      obtain ⟨q, hq, rfl⟩ := List.mem_map.mp hl
      exact stringifyLine_no_nl (hgood q hq).1 (no_nl_of_all_dot (hgood q hq).2.2))]
    simpa using parseLines_stringify_go (p :: m') [] hgood hnodup (fun q _ => rfl)

/-- Witness for C5 at a concrete mapping with one quoted and one plain
value. -/
theorem parse_stringify_roundTrip_witness :
    parseEnvContent (stringifyEnv [("A".data, "b c".data), ("B_2".data, "x".data)]) =
      [("A".data, "b c".data), ("B_2".data, "x".data)] :=
  parse_stringify_roundTrip _ (by decide) (by decide)

/-- C5 counterexample: a key starting with a digit round-trips to nothing
even though its value needs no quoting; a value containing a newline
round-trips to a corrupted entry; a value containing a carriage return is
rejected by ENV_LINE and the entry is lost; and the key `__proto__` is
dropped by the assignment no-op. -/
theorem parse_stringify_roundTrip_cex :
    parseEnvContent (stringifyEnv [("1AB".data, "x".data)]) = [] ∧
      parseEnvContent (stringifyEnv [("1AB".data, "x".data)]) ≠ [("1AB".data, "x".data)] ∧
      parseEnvContent (stringifyEnv [("K".data, ['a', '\n', 'b'])]) =
        [("K".data, ['"', 'a'])] ∧
      parseEnvContent (stringifyEnv [("K".data, ['a', '\n', 'b'])]) ≠
        [("K".data, ['a', '\n', 'b'])] ∧
      parseEnvContent (stringifyEnv [("K".data, ['b', '\r', 'c'])]) = [] ∧
      parseEnvContent (stringifyEnv [("__proto__".data, "x".data)]) = [] := by
  refine ⟨by decide, by decide, by decide, by decide, by decide, by decide⟩

/-- C4 counterexample: the all-lowercase key line abc=1 does produce an
invalid-key diagnostic — the validator's key pattern has no `i` flag. -/
theorem validate_lowercase_key_cex :
    validateEnvContent "abc=1".data = [invalidKeyMsg 1 "abc".data] ∧
      validateEnvContent "abc=1".data ≠ [] := by
  refine ⟨by decide, by decide⟩
